import Mathlib

/-!
Verification of `cavemap_2000.py`, a cave survey line-plot program.

The embedding below translates the `LinePlot` class and its helper
functions into Lean over exact real arithmetic: Python floats become `ℝ`,
Python `math.cos`/`math.sin` become `Real.cos`/`Real.sin`, the float
modulo `%` (whose result has the divisor's sign) becomes `fmod` below,
and the mutable shot dictionaries become records addressed by their index
in `self.shots` (the "heap" of a processing state), so that in-place
mutation shared between `self.shots`, `done` and `unfinished` is modelled
faithfully by index lists into one updatable list of records.

The cross-section offset fields (left/right/up/down) and the free-text
note are carried by the source but never consumed by validation,
resolution or plotting; they are omitted from the record type.
-/

noncomputable section

namespace Cavemap

open Classical

/-- Python float modulo with a positive divisor: `x % y = x - y * ⌊x / y⌋`. -/
def fmod (x y : ℝ) : ℝ := x - y * ⌊x / y⌋

/-- The degree-to-radian conversion exactly as written in the source
(`value * 2 * np.pi / 360`). -/
def degToRad (a : ℝ) : ℝ := a * (2 * Real.pi) / 360

/-- An azimuth/inclination cell: either a single float reading or a
fore/backsight pair (a two-element tuple in the source). -/
inductive AngleVal where
  | single (v : ℝ)
  | paired (fore back : ℝ)

/-- A raw survey shot as handed to `add_shot` (the `shot_info` dict).
`frm` is the dict key `from` (a Lean keyword). -/
structure Shot where
  frm : String
  name : String
  distance : ℝ
  azimuth : AngleVal
  inclination : AngleVal

/-- A shot record during/after `process`: the angle fields have been
reduced to scalars and the resolver may have attached `position` and
`flat_position` (absent dict keys are `none`). -/
structure RShot where
  frm : String
  name : String
  distance : ℝ
  azimuth : ℝ
  inclination : ℝ
  position : Option (ℝ × ℝ × ℝ)
  flat_position : Option (ℝ × ℝ)

instance : Inhabited RShot := ⟨⟨"", "", 0, 0, 0, none, none⟩⟩

/-- The `LinePlot` object state built by `add_shot`. -/
structure LinePlot where
  shots : List Shot
  shot_names : List String
  title : String
  dist_units : String
  angle_tol : ℝ
  origin_name : Option String

/-- `LinePlot.__init__`. -/
def LinePlot.init (title dist_units : String) (angle_tol : ℝ) : LinePlot :=
  ⟨[], [], title, dist_units, angle_tol, none⟩

/-- The two `assert` failures in `add_shot` (AssertionError in Python,
classified as ValidationError by the specification). -/
inductive ValidationError where
  | unknownFrom
  | nonPositiveDistance
deriving DecidableEq

/-- `LinePlot.add_shot`: assert that a non-first shot's `from` names an
already-added shot, then assert `distance > 0`, then append the shot and
register its target name.  (The tolerance warnings printed in between are
modelled separately by `shotWarnings`; printing never alters state.) -/
def addShot (lp : LinePlot) (s : Shot) : Except ValidationError LinePlot :=
  if lp.shots.length > 0 ∧ s.frm ∉ lp.shot_names then
    .error .unknownFrom
  else if s.distance ≤ 0 then
    .error .nonPositiveDistance
  else
    .ok { lp with shots := lp.shots ++ [s], shot_names := lp.shot_names ++ [s.name] }

/-- The backsight disagreement `add_shot` computes for a paired azimuth:
`abs (value[0] - (value[1]+180)%360)`. -/
def aziDisagree (f b : ℝ) : ℝ := |f - fmod (b + 180) 360|

/-- The backsight disagreement `add_shot` computes for a paired
inclination: `abs (value[0] - (-value[1]))`. -/
def inclDisagree (f b : ℝ) : ℝ := |f - (-b)|

/-- One tolerance warning printed by `add_shot`: the field it concerns,
the shot label `from-->name`, and the reported disagreement magnitude. -/
structure Warning where
  field : String
  shot : String
  value : ℝ

/-- The warnings `add_shot` prints for a shot, in source order (azimuth
check first, then inclination). -/
def shotWarnings (tol : ℝ) (s : Shot) : List Warning :=
  (match s.azimuth with
    | .paired f b =>
        if aziDisagree f b > tol then
          [⟨"azimuth", s.frm ++ "-->" ++ s.name, aziDisagree f b⟩]
        else []
    | .single _ => []) ++
  (match s.inclination with
    | .paired f b =>
        if inclDisagree f b > tol then
          [⟨"inclination", s.frm ++ "-->" ++ s.name, inclDisagree f b⟩]
        else []
    | .single _ => [])

/-- The azimuth averaging step of `process`:
`(azi[0] + (azi[1]+180)%360)/2.0` for a pair, identity for a scalar. -/
def reduceAzimuth : AngleVal → ℝ
  | .single a => a
  | .paired f b => (f + fmod (b + 180) 360) / 2

/-- The inclination averaging step of `process`:
`(incl[0] - incl[1])/2.0` for a pair, identity for a scalar. -/
def reduceInclination : AngleVal → ℝ
  | .single a => a
  | .paired f b => (f - b) / 2

/-- The angle-averaging pass of `process` applied to one shot; the
position fields do not exist yet. -/
def reduceShot (s : Shot) : RShot :=
  ⟨s.frm, s.name, s.distance, reduceAzimuth s.azimuth, reduceInclination s.inclination,
    none, none⟩

/-- `calc_pos`: the absolute position of a new shot from its
predecessor's position. -/
def calcPos (prev : ℝ × ℝ × ℝ) (dist azi incl : ℝ) : ℝ × ℝ × ℝ :=
  (prev.1 + dist * Real.cos (degToRad incl) * Real.sin (degToRad azi),
   prev.2.1 + dist * Real.cos (degToRad incl) * Real.cos (degToRad azi),
   prev.2.2 + dist * Real.sin (degToRad incl))

/-- `calc_pos_flat`: the flattened-profile position of a new shot from
its predecessor's flat position. -/
def calcPosFlat (prev : ℝ × ℝ) (dist incl : ℝ) : ℝ × ℝ :=
  (prev.1 + dist * Real.cos (degToRad incl),
   prev.2 + dist * Real.sin (degToRad incl))

/-- Euclidean distance between two 3D points. -/
def dist3 (p q : ℝ × ℝ × ℝ) : ℝ :=
  Real.sqrt ((p.1 - q.1) ^ 2 + (p.2.1 - q.2.1) ^ 2 + (p.2.2 - q.2.2) ^ 2)

/-- `done_names()`: the target names of the shots currently in `done`
(`done` holds indices into the heap of shot records). -/
def doneNames (heap : List RShot) (done : List Nat) : List String :=
  done.map (fun j => (heap.getD j default).name)

/-- Resolving the shot at heap index `j`: look up the first `done` record
whose `name` equals the shot's `from` (the `next(...)` generator), and
set the shot's `position` and `flat_position` in place. -/
def resolveAt (heap : List RShot) (done : List Nat) (j : Nat) : List RShot :=
  let s := heap.getD j default
  let prev : RShot :=
    match done.find? (fun k => (heap.getD k default).name = s.frm) with
    | some k => heap.getD k default
    | none => default
  heap.set j
    { s with
      position := some (calcPos (prev.position.getD (0, 0, 0)) s.distance s.azimuth s.inclination),
      flat_position := some (calcPosFlat (prev.flat_position.getD (0, 0)) s.distance s.inclination) }

/-- The state after one pass of `for shot in unfinished:`. -/
structure ScanResult where
  heap : List RShot
  done : List Nat
  unf : List Nat
  prog : Bool

/-- One pass of the inner `for shot in unfinished:` loop, starting at
iterator index `i`.  Python's list iterator is index-based, so removing
the current element shifts the rest left and the `i + 1` step skips the
element that moved into slot `i`; `scan` reproduces exactly that.
`prog` records whether any shot was resolved during the pass (each
resolution executes `looped_twice = False`). -/
def scan (heap : List RShot) (done unf : List Nat) (i : Nat) (prog : Bool) : ScanResult :=
  if h : i < unf.length then
    if (heap.getD (unf.get ⟨i, h⟩) default).frm ∈ doneNames heap done then
      scan (resolveAt heap done (unf.get ⟨i, h⟩)) (done ++ [unf.get ⟨i, h⟩])
        (unf.eraseIdx i) (i + 1) true
    else
      scan heap done unf (i + 1) prog
  else
    ⟨heap, done, unf, prog⟩
termination_by unf.length - i
decreasing_by
  · simp only [List.length_eraseIdx, h, if_pos]
    omega
  · omega

/-- The possible outcomes of `process`: normal return with
`self.shots := done` (in resolution order), the `ValueError` raised on a
stalled pass (ConnectivityError; `self.shots` keeps the original order
but the records have been mutated in place), or the `IndexError` from
`unfinished.pop(0)` on an empty network. -/
inductive ProcResult where
  | ok (shots : List RShot) (origin : String)
  | connErr (shots : List RShot) (origin : String)
  | emptyErr

/-- The origin name recorded in a `process` outcome. -/
def ProcResult.originName : ProcResult → Option String
  | .ok _ o => some o
  | .connErr _ o => some o
  | .emptyErr => none

/-- The `while len(unfinished) > 0:` loop, with an explicit fuel bound on
the number of passes (`none` means the fuel ran out; `loop_terminates`
shows `2 * unf.length + 2` passes always suffice).  A pass is followed by
`raise ValueError(...)` exactly when `looped_twice` was still set at its
end, i.e. when the `flag` carried into the pass was set and the pass
resolved nothing. -/
def loopFuel : Nat → List RShot → List Nat → List Nat → Bool → String → Option ProcResult
  | 0, _, _, _, _, _ => none
  | fuel + 1, heap, done, unf, flag, origin =>
    if unf.isEmpty then
      some (.ok (done.map (fun j => heap.getD j default)) origin)
    else
      if flag ∧ (scan heap done unf 0 false).prog = false then
        some (.connErr (scan heap done unf 0 false).heap origin)
      else
        loopFuel fuel (scan heap done unf 0 false).heap (scan heap done unf 0 false).done
          (scan heap done unf 0 false).unf true origin

/-- `LinePlot.process`: average paired angles, fix the first shot's
`from` as the origin at `(0,0,0)` (flat `(0,0)`), place the first shot's
target immediately, then run the propagation loop over the remaining
shots (heap indices `1..n-1`). -/
def process (shots : List Shot) : Option ProcResult :=
  match shots.map reduceShot with
  | [] => some .emptyErr
  | first :: rest =>
    let first0 : RShot :=
      { first with
        position := some (calcPos (0, 0, 0) first.distance first.azimuth first.inclination),
        flat_position := some (calcPosFlat (0, 0) first.distance first.inclination) }
    loopFuel (2 * rest.length + 2) (first0 :: rest) [0] (List.range' 1 rest.length) false first.frm

/-- The coordinate list `shot[pos_type]` used by `plot`: the flat
position for the flattened profile view, the 3D position otherwise.
Tuples become coordinate lists so that Python's `p[:2]` and `p[1:]`
slices are `List.take 2` and `List.drop 1`. -/
def posListOf (view : String) (s : RShot) : List ℝ :=
  if view = "flat_profile" then
    match s.flat_position with
    | some (w, z) => [w, z]
    | none => []
  else
    match s.position with
    | some (x, y, z) => [x, y, z]
    | none => []

/-- The point list `plot` builds: each shot's coordinates plus the
origin point `(0, 0, 0)` appended at the end. -/
def pointsOf (shots : List RShot) (view : String) : List (List ℝ) :=
  shots.map (posListOf view) ++ [[0, 0, 0]]

/-- The label list `plot` builds: each shot's target name plus the
origin name appended at the end. -/
def labelsOf (shots : List RShot) (origin : String) : List String :=
  shots.map RShot.name ++ [origin]

/-- The segment `plot` builds for one shot: coordinates of the
predecessor (the first shot whose `name` is this shot's `from`, or the
origin point) zipped with the shot's own coordinates; a `from` that is
neither a known station nor the origin re-raises StopIteration. -/
def segOf (shots : List RShot) (origin : String) (view : String) (s : RShot) :
    Except String (List (ℝ × ℝ)) :=
  match shots.find? (fun t => t.name = s.frm) with
  | some prev => .ok ((posListOf view prev).zip (posListOf view s))
  | none =>
    if s.frm = origin then .ok (([0, 0, 0] : List ℝ).zip (posListOf view s))
    else .error "StopIteration"

/-- All segments `plot` builds, in shot order. -/
def segsOf (shots : List RShot) (origin : String) (view : String) :
    Except String (List (List (ℝ × ℝ))) :=
  shots.mapM (segOf shots origin view)

/-- The geometry handed to matplotlib by `plot`. -/
structure Render where
  points : List (List ℝ)
  labels : List String
  segments : List (List (ℝ × ℝ))

/-- `LinePlot.plot`: build points, labels and segments, then reduce them
to the axes of the requested view (`plan`/`flat_profile` keep the first
two coordinates, `profile` drops the first, `3d` keeps all three) or
raise `KeyError` (ViewError) on anything else. -/
def plot (shots : List RShot) (origin : String) (view : String) : Except String Render := do
  let points := pointsOf shots view
  let labels := labelsOf shots origin
  let segments ← segsOf shots origin view
  if view = "plan" ∨ view = "flat_profile" then
    .ok ⟨points.map (List.take 2), labels, segments.map (List.take 2)⟩
  else if view = "profile" then
    .ok ⟨points.map (List.drop 1), labels, segments.map (List.drop 1)⟩
  else if view = "3d" then
    .ok ⟨points, labels, segments⟩
  else
    .error "Invalid view"

/-- The resolved data `plot` reads from the object. -/
structure ResolvedPlot where
  shots : List RShot
  origin : String

/-- A call of the `plot` method as a state transformer: the method reads
`self.shots`/`self.origin_name` and never assigns to `self`, so the
object state it returns is its input state. -/
def plotCall (lp : ResolvedPlot) (view : String) : Except String Render × ResolvedPlot :=
  (plot lp.shots lp.origin view, lp)

/-- Modelled from the spec (the claim's words): the circular mean of two
angles given in degrees, i.e. the direction of the sum of their two unit
direction vectors, as an angle in degrees. -/
def circularMeanSpec (a b : ℝ) : ℝ :=
  Complex.arg (Complex.exp (degToRad a * Complex.I) + Complex.exp (degToRad b * Complex.I))
    * 360 / (2 * Real.pi)

/-- The fields of a shot record other than the resolver-added positions:
`from`, `name`, `distance` and the two scalar angles.  The propagation
loop never changes these. -/
def RShot.key (s : RShot) : String × String × ℝ × ℝ × ℝ :=
  (s.frm, s.name, s.distance, s.azimuth, s.inclination)

/-- Concrete shot for the C6 counterexample: azimuth pair (359, 181). -/
def shotC6 : Shot := ⟨"A", "B", 5, .paired 359 181, .single 0⟩

/-- An empty line plot at the default tolerance, for witnesses. -/
def lp0 : LinePlot := LinePlot.init "Cave" "feet" 2

/-- A one-shot line plot whose only station is named B, for C8. -/
def lpAB : LinePlot := ⟨[⟨"A", "B", 1, .single 0, .single 0⟩], ["B"], "Cave", "feet", 2, none⟩

/-- A shot whose target name B duplicates an existing station name. -/
def shotBB : Shot := ⟨"B", "B", 1, .single 0, .single 0⟩

/-- A disconnected two-component network (A→B and X→Y), for C7. -/
def exDisc : List Shot :=
  [⟨"A", "B", 1, .single 0, .single 0⟩, ⟨"X", "Y", 1, .single 0, .single 0⟩]

/-- The record for shot A→B after the failed `process` run on `exDisc`:
angles reduced and the position fields set in place. -/
def rShotAB : RShot :=
  ⟨"A", "B", 1, 0, 0, some (calcPos (0, 0, 0) 1 0 0), some (calcPosFlat (0, 0) 1 0)⟩

/-- The record for shot X→Y after the failed `process` run on `exDisc`:
angles reduced, never resolved. -/
def rShotXY : RShot := ⟨"X", "Y", 1, 0, 0, none, none⟩

/-- A two-shot chain A→B→C built by successful `add_shot` calls, for the
C10 witness. -/
def shotsW : List Shot :=
  [⟨"A", "B", 1, .single 0, .single 0⟩, ⟨"B", "C", 2, .single 90, .single 0⟩]

/-- A single shot from the origin with distance 10, azimuth 0 and
inclination 0, for the C2 witness. -/
def shotA : Shot := ⟨"A", "B", 10, .single 0, .single 0⟩

/-- Sequential well-formedness, the property `add_shot` enforces at
ingestion: every non-first shot's `from` equals the target `name` of
some earlier shot. -/
def WF (shots : List Shot) : Prop :=
  ∀ k (h : k < shots.length), 0 < k →
    ∃ j, ∃ hj : j < shots.length, j < k ∧
      (shots.get ⟨j, hj⟩).name = (shots.get ⟨k, h⟩).frm

/-- The invariant of the propagation loop, for a heap whose station
names and from-references are described by the index maps `NM` and
`FM`: `done` and `unfinished` partition the heap's indices, `unfinished`
is kept in ascending index order (scans preserve relative order), its
indices are all non-zero (index 0 is the first shot, resolved before the
loop), every `done` record carries both position fields, and the loop
never changes any record's name or from-reference. -/
structure LoopInv (NM FM : Nat → String) (heap : List RShot) (done unf : List Nat) : Prop where
  perm : List.Perm (done ++ unf) (List.range heap.length)
  sorted : unf.Pairwise (· < ·)
  pos1 : ∀ k ∈ unf, 0 < k
  donePos : ∀ k ∈ done, ((heap.getD k default).position).isSome
      ∧ ((heap.getD k default).flat_position).isSome
  nameAt : ∀ k, (heap.getD k default).name = NM k
  frmAt : ∀ k, (heap.getD k default).frm = FM k

/-- The resolved record `process` produces for `shotA`. -/
def rShotW : RShot :=
  ⟨"A", "B", 10, 0, 0, some (calcPos (0, 0, 0) 10 0 0), some (calcPosFlat (0, 0) 10 0)⟩

/-! ### Helper lemmas -/

theorem fmod_eq_of (x y : ℝ) (n : ℤ) (hy : 0 < y) (h1 : (n : ℝ) * y ≤ x)
    (h2 : x < ((n : ℝ) + 1) * y) : fmod x y = x - y * n := by
  have hfloor : ⌊x / y⌋ = n := by
    rw [Int.floor_eq_iff]
    constructor
    · rw [le_div_iff₀ hy]; exact h1
    · rw [div_lt_iff₀ hy]; linarith
  rw [fmod, hfloor]

theorem fmod_370 : fmod 370 360 = 10 := by
  rw [show fmod 370 360 = 370 - 360 * ((1 : ℤ) : ℝ) from
    fmod_eq_of 370 360 1 (by norm_num) (by norm_num) (by norm_num)]
  norm_num

theorem fmod_361 : fmod 361 360 = 1 := by
  rw [show fmod 361 360 = 361 - 360 * ((1 : ℤ) : ℝ) from
    fmod_eq_of 361 360 1 (by norm_num) (by norm_num) (by norm_num)]
  norm_num

theorem fmod_539 : fmod 539 360 = 179 := by
  rw [show fmod 539 360 = 539 - 360 * ((1 : ℤ) : ℝ) from
    fmod_eq_of 539 360 1 (by norm_num) (by norm_num) (by norm_num)]
  norm_num

theorem addShot_ok_iff (lp : LinePlot) (s : Shot) :
    addShot lp s =
        .ok { lp with shots := lp.shots ++ [s], shot_names := lp.shot_names ++ [s.name] }
      ↔ 0 < s.distance ∧ (lp.shots = [] ∨ s.frm ∈ lp.shot_names) := by
  unfold addShot
  split_ifs with h1 h2
  · constructor
    · intro h; exact absurd h (by simp)
    · rintro ⟨-, hmem⟩
      rcases h1 with ⟨hlen, hnm⟩
      rcases hmem with he | hm
      · rw [he] at hlen; exact absurd hlen (by simp)
      · exact hnm hm
  · constructor
    · intro h; exact absurd h (by simp)
    · rintro ⟨hd, -⟩; exact absurd hd (not_lt.mpr h2)
  · push_neg at h1 h2
    constructor
    · intro _
      refine ⟨h2, ?_⟩
      by_cases he : lp.shots = []
      · exact Or.inl he
      · exact Or.inr (h1 (by simpa [List.length_pos] using he))
    · intro _; rfl

theorem addShot_error_iff (lp : LinePlot) (s : Shot) :
    (∃ e, addShot lp s = .error e)
      ↔ s.distance ≤ 0 ∨ (lp.shots ≠ [] ∧ s.frm ∉ lp.shot_names) := by
  unfold addShot
  split_ifs with h1 h2
  · constructor
    · intro _
      exact Or.inr ⟨by simpa [List.length_pos] using h1.1, h1.2⟩
    · intro _; exact ⟨.unknownFrom, rfl⟩
  · constructor
    · intro _; exact Or.inl h2
    · intro _; exact ⟨.nonPositiveDistance, rfl⟩
  · push_neg at h1 h2
    constructor
    · rintro ⟨e, he⟩; exact absurd he (by simp)
    · rintro (hd | ⟨hne, hnm⟩)
      · exact absurd hd (not_le.mpr h2)
      · exact absurd (h1 (by simpa [List.length_pos] using hne)) hnm

/-! ### Claim theorems -/

/-- C1: for every shot resolved with scalar azimuth and inclination, the
Euclidean distance between the resolved target position and the
predecessor position equals the shot's `distance` field exactly (in
exact real arithmetic), for all azimuth and inclination values. -/
theorem resolved_distance_exact (p : ℝ × ℝ × ℝ) (d a i : ℝ) (hd : 0 < d) :
    dist3 (calcPos p d a i) p = d := by
  have h1 := Real.sin_sq_add_cos_sq (degToRad a)
  have h2 := Real.sin_sq_add_cos_sq (degToRad i)
  have e : dist3 (calcPos p d a i) p = Real.sqrt (d ^ 2) := by
    unfold dist3 calcPos
    congr 1
    linear_combination (d ^ 2 * Real.cos (degToRad i) ^ 2) * h1 + d ^ 2 * h2
  rw [e, Real.sqrt_sq hd.le]

/-- Witness for C1 at distance 10, azimuth 0, inclination 0. -/
theorem resolved_distance_exact_wit :
    (0 : ℝ) < 10 ∧ dist3 (calcPos (0, 0, 0) 10 0 0) (0, 0, 0) = 10 :=
  ⟨by norm_num, resolved_distance_exact (0, 0, 0) 10 0 0 (by norm_num)⟩

/-- C5: `add_shot` fails (ValidationError) exactly when the distance is
non-positive or a non-first shot's `from` is not the target name of a
previously added shot; otherwise it appends the shot and registers its
target name.  The first shot's `from` is exempt from the membership
check. -/
theorem addShot_validation (lp : LinePlot) (s : Shot) :
    (addShot lp s =
        .ok { lp with shots := lp.shots ++ [s], shot_names := lp.shot_names ++ [s.name] }
      ↔ 0 < s.distance ∧ (lp.shots = [] ∨ s.frm ∈ lp.shot_names))
    ∧ ((∃ e, addShot lp s = .error e)
      ↔ s.distance ≤ 0 ∨ (lp.shots ≠ [] ∧ s.frm ∉ lp.shot_names)) :=
  ⟨addShot_ok_iff lp s, addShot_error_iff lp s⟩

/-- C3 counterexample: the code's azimuth reduction is the plain
arithmetic mean, not the circular mean.  For the pair (350, 190) the
corrected backsight is 10 and the code produces (350 + 10) / 2 = 180,
whereas the circular mean of 350 and 10 is 0. -/
theorem azimuth_mean_not_circular :
    reduceAzimuth (.paired 350 190) = 180
    ∧ circularMeanSpec 350 (fmod (190 + 180) 360) = 0
    ∧ (180 : ℝ) ≠ 0 := by
  have hf : fmod ((190 : ℝ) + 180) 360 = 10 := by norm_num [fmod_370]
  refine ⟨?_, ?_, by norm_num⟩
  · show (350 + fmod (190 + 180) 360) / 2 = 180
    rw [hf]; norm_num
  · rw [hf]
    unfold circularMeanSpec
    have h350 : degToRad 350 = 2 * Real.pi - Real.pi / 18 := by unfold degToRad; ring
    have h10 : degToRad 10 = Real.pi / 18 := by unfold degToRad; ring
    rw [h350, h10]
    have key : Complex.exp (((2 * Real.pi - Real.pi / 18 : ℝ) : ℂ) * Complex.I)
        + Complex.exp (((Real.pi / 18 : ℝ) : ℂ) * Complex.I)
        = ((2 * Real.cos (Real.pi / 18) : ℝ) : ℂ) := by
      have e1 : ((2 * Real.pi - Real.pi / 18 : ℝ) : ℂ) * Complex.I
          = 2 * (Real.pi : ℂ) * Complex.I - ((Real.pi / 18 : ℝ) : ℂ) * Complex.I := by
        push_cast; ring
      rw [e1, Complex.exp_sub, Complex.exp_two_pi_mul_I, one_div, ← Complex.exp_neg,
        add_comm, ← neg_mul, ← Complex.two_cos, ← Complex.ofReal_cos]
      push_cast; ring
    have hpos : (0 : ℝ) ≤ 2 * Real.cos (Real.pi / 18) := by
      have := Real.cos_pos_of_mem_Ioo
        (x := Real.pi / 18) ⟨by linarith [Real.pi_pos], by linarith [Real.pi_pos]⟩
      linarith
    rw [key, Complex.arg_ofReal_of_nonneg hpos]
    norm_num

/-- C3 (amended): the angle-reduction step replaces every paired azimuth
by the arithmetic mean of the foresight and `(backsight + 180) mod 360`,
and every paired inclination by the mean of the foresight and the
negated backsight; scalar values pass through unchanged, every reduced
shot carries scalar angle fields, and the pair (10, 190) averages to
azimuth 10. -/
theorem angle_reduction_amended :
    (∀ f b : ℝ, reduceAzimuth (.paired f b) = (f + fmod (b + 180) 360) / 2)
    ∧ (∀ f b : ℝ, reduceInclination (.paired f b) = (f + -b) / 2)
    ∧ (∀ a : ℝ, reduceAzimuth (.single a) = a ∧ reduceInclination (.single a) = a)
    ∧ (∀ s : Shot, (reduceShot s).azimuth = reduceAzimuth s.azimuth
        ∧ (reduceShot s).inclination = reduceInclination s.inclination)
    ∧ reduceAzimuth (.paired 10 190) = 10 := by
  refine ⟨fun f b => rfl, fun f b => by unfold reduceInclination; ring,
    fun a => ⟨rfl, rfl⟩, fun s => ⟨rfl, rfl⟩, ?_⟩
  show (10 + fmod (190 + 180) 360) / 2 = 10
  norm_num [fmod_370]

/-- C6 counterexample: at tolerance 2, the code warns on the azimuth
pair (359, 181) because it compares the foresight against the corrected
backsight, `|359 - ((181+180) mod 360)| = 358 > 2`, while the claim's
formula `|((359+180) mod 360) - 181| = 2` does not exceed the
tolerance — so the claimed if-and-only-if condition is false here. -/
theorem warning_formula_cex :
    shotWarnings 2 shotC6 ≠ [] ∧ ¬ (|fmod (359 + 180) 360 - 181| > (2 : ℝ)) := by
  constructor
  · have hd : aziDisagree 359 181 = 358 := by
      unfold aziDisagree
      rw [show ((181 : ℝ) + 180) = 361 by norm_num, fmod_361]
      rw [show ((359 : ℝ) - 1) = 358 by norm_num]
      rw [abs_of_nonneg (by norm_num)]
    simp only [shotWarnings, shotC6, hd]
    rw [if_pos (by norm_num : (358 : ℝ) > 2)]
    simp
  · rw [show ((359 : ℝ) + 180) = 539 by norm_num, fmod_539]
    rw [show ((179 : ℝ) - 181) = -2 by norm_num, abs_neg, abs_of_nonneg (by norm_num)]
    norm_num

/-- C6 (amended): for a paired azimuth a warning is emitted iff
`|fore - ((back + 180) mod 360)|` exceeds the tolerance (the code
corrects the backsight and compares it to the foresight, not the other
way around); for a paired inclination, iff `|(-fore) - back|` exceeds
it; each warning identifies the shot as `from-->name` and reports the
disagreement magnitude; and warnings never affect acceptance: a shot
passing the distance and membership checks is added regardless. -/
theorem warning_behavior_amended (tol : ℝ) (lp : LinePlot) (s : Shot) :
    (∀ fa ba, s.azimuth = .paired fa ba →
        ((∃ w ∈ shotWarnings tol s, w.field = "azimuth") ↔ |fa - fmod (ba + 180) 360| > tol)
        ∧ (∀ w ∈ shotWarnings tol s, w.field = "azimuth" →
            w.value = |fa - fmod (ba + 180) 360|))
    ∧ (∀ fi bi, s.inclination = .paired fi bi →
        ((∃ w ∈ shotWarnings tol s, w.field = "inclination") ↔ |(-fi) - bi| > tol)
        ∧ (∀ w ∈ shotWarnings tol s, w.field = "inclination" → w.value = |(-fi) - bi|))
    ∧ (∀ w ∈ shotWarnings tol s, w.shot = s.frm ++ "-->" ++ s.name)
    ∧ (0 < s.distance → (lp.shots = [] ∨ s.frm ∈ lp.shot_names) →
        addShot lp s =
          .ok { lp with shots := lp.shots ++ [s], shot_names := lp.shot_names ++ [s.name] }) := by
  have hincl : ∀ fi bi : ℝ, inclDisagree fi bi = |(-fi) - bi| := by
    intro fi bi
    unfold inclDisagree
    rw [show (-fi) - bi = -(fi - -bi) by ring, abs_neg]
  have hazi : ∀ fa ba : ℝ, aziDisagree fa ba = |fa - fmod (ba + 180) 360| := fun _ _ => rfl
  refine ⟨?_, ?_, ?_, fun hd hm => (addShot_ok_iff lp s).mpr ⟨hd, hm⟩⟩
  · intro fa ba ha
    cases hi2 : s.inclination with
    | single v =>
      constructor <;>
        · simp only [shotWarnings, ha, hi2, ← hazi]
          split_ifs with h1 <;> simp_all
    | paired f b =>
      constructor <;>
        · simp only [shotWarnings, ha, hi2, ← hazi]
          split_ifs with h1 h2 <;> simp_all
  · intro fi bi hi
    cases ha2 : s.azimuth with
    | single v =>
      constructor <;>
        · simp only [shotWarnings, ha2, hi, ← hincl]
          split_ifs with h1 <;> simp_all
    | paired f b =>
      constructor <;>
        · simp only [shotWarnings, ha2, hi, ← hincl]
          split_ifs with h1 h2 <;> simp_all
  · cases ha2 : s.azimuth with
    | single va =>
      cases hi2 : s.inclination with
      | single vi => simp [shotWarnings, ha2, hi2]
      | paired f b =>
        simp only [shotWarnings, ha2, hi2]
        split_ifs with h1 <;> simp_all
    | paired fa ba =>
      cases hi2 : s.inclination with
      | single vi =>
        simp only [shotWarnings, ha2, hi2]
        split_ifs with h1 <;> simp_all
      | paired f b =>
        simp only [shotWarnings, ha2, hi2]
        split_ifs with h1 h2 <;> simp_all

/-- Witness for the amended C6 at the azimuth pair (359, 181) with
tolerance 2, on a shot whose inclination is a single scalar — the
azimuth characterization applies regardless of the other field's
shape. -/
theorem warning_behavior_amended_wit :
    shotC6.azimuth = .paired 359 181
    ∧ (((∃ w ∈ shotWarnings 2 shotC6, w.field = "azimuth")
          ↔ |(359 : ℝ) - fmod (181 + 180) 360| > 2)
      ∧ (∀ w ∈ shotWarnings 2 shotC6, w.field = "azimuth" →
          w.value = |(359 : ℝ) - fmod (181 + 180) 360|))
    ∧ (∀ w ∈ shotWarnings 2 shotC6, w.shot = shotC6.frm ++ "-->" ++ shotC6.name)
    ∧ (0 < shotC6.distance → (lp0.shots = [] ∨ shotC6.frm ∈ lp0.shot_names) →
        addShot lp0 shotC6 =
          .ok { lp0 with shots := lp0.shots ++ [shotC6],
                         shot_names := lp0.shot_names ++ [shotC6.name] }) :=
  ⟨rfl, (warning_behavior_amended 2 lp0 shotC6).1 359 181 rfl,
    (warning_behavior_amended 2 lp0 shotC6).2.2.1,
    (warning_behavior_amended 2 lp0 shotC6).2.2.2⟩

/-- C8 counterexample: `add_shot` accepts a shot whose target name
duplicates an already-registered station name, so station names are not
globally unique and no duplicate-name rejection happens at add-time. -/
theorem duplicate_name_cex :
    shotBB.name ∈ lpAB.shot_names ∧
    addShot lpAB shotBB =
      .ok { lpAB with shots := lpAB.shots ++ [shotBB], shot_names := ["B", "B"] } := by
  constructor
  · simp [lpAB, shotBB]
  · have h := (addShot_ok_iff lpAB shotBB).mpr
      ⟨by norm_num [shotBB], Or.inr (by simp [lpAB, shotBB])⟩
    simpa [lpAB, shotBB] using h

/-- C8 (amended): `add_shot` performs no uniqueness check on target
station names: whenever the distance and from-membership checks pass, a
shot is appended even if its target name already names an existing
station; uniqueness is an input assumption, not an enforced invariant. -/
theorem duplicate_name_amended (lp : LinePlot) (s : Shot) (_hdup : s.name ∈ lp.shot_names)
    (hd : 0 < s.distance) (hmem : s.frm ∈ lp.shot_names) :
    addShot lp s =
      .ok { lp with shots := lp.shots ++ [s], shot_names := lp.shot_names ++ [s.name] } :=
  (addShot_ok_iff lp s).mpr ⟨hd, Or.inr hmem⟩

/-- Witness for the amended C8 on a concrete duplicate target name. -/
theorem duplicate_name_amended_wit :
    shotBB.name ∈ lpAB.shot_names ∧ 0 < shotBB.distance ∧ shotBB.frm ∈ lpAB.shot_names ∧
    addShot lpAB shotBB =
      .ok { lpAB with shots := lpAB.shots ++ [shotBB],
                      shot_names := lpAB.shot_names ++ [shotBB.name] } :=
  ⟨by simp [lpAB, shotBB], by norm_num [shotBB], by simp [lpAB, shotBB],
    duplicate_name_amended lpAB shotBB (by simp [lpAB, shotBB]) (by norm_num [shotBB])
      (by simp [lpAB, shotBB])⟩

/-- C9: `plot` selects axes by view kind — plan keeps the two horizontal
coordinates of every point and segment, profile drops the one remaining
horizontal coordinate, the flattened profile uses the flat positions
as-is, and 3d keeps all three coordinates — and any other view kind
fails with ViewError (the `KeyError` message).  The per-view statements
are conditional on the segment pass succeeding, because the source
raises `StopIteration` before the view dispatch when a `from` station is
unknown.  The failure aborts only the single render call: `plot` never
writes to the object, so the state returned by `plotCall` is its input
and later render requests are unaffected. -/
theorem plot_view_dispatch (shots : List RShot) (o : String) (v : String)
    (hv : v ∉ ["3d", "plan", "profile", "flat_profile"]) :
    (∀ segs, segsOf shots o v = .ok segs → plot shots o v = .error "Invalid view")
    ∧ (∀ segs, segsOf shots o "plan" = .ok segs →
        plot shots o "plan" =
          .ok ⟨(pointsOf shots "plan").map (List.take 2), labelsOf shots o,
               segs.map (List.take 2)⟩)
    ∧ (∀ segs, segsOf shots o "profile" = .ok segs →
        plot shots o "profile" =
          .ok ⟨(pointsOf shots "profile").map (List.drop 1), labelsOf shots o,
               segs.map (List.drop 1)⟩)
    ∧ (∀ segs, segsOf shots o "flat_profile" = .ok segs →
        plot shots o "flat_profile" =
          .ok ⟨(pointsOf shots "flat_profile").map (List.take 2), labelsOf shots o,
               segs.map (List.take 2)⟩)
    ∧ (∀ segs, segsOf shots o "3d" = .ok segs →
        plot shots o "3d" = .ok ⟨pointsOf shots "3d", labelsOf shots o, segs⟩)
    ∧ (∀ x y z : ℝ, ([x, y, z] : List ℝ).take 2 = [x, y]
        ∧ ([x, y, z] : List ℝ).drop 1 = [y, z])
    ∧ (∀ s, (posListOf "flat_profile" s).take 2 = posListOf "flat_profile" s)
    ∧ (plotCall ⟨shots, o⟩ v).2 = ⟨shots, o⟩
    ∧ (∀ v2, plotCall ((plotCall ⟨shots, o⟩ v).2) v2 = plotCall ⟨shots, o⟩ v2) := by
  simp only [List.mem_cons, List.not_mem_nil, or_false, not_or] at hv
  obtain ⟨h3, hp, hpr, hf⟩ := hv
  refine ⟨?_, ?_, ?_, ?_, ?_, by simp, ?_, rfl, fun v2 => rfl⟩
  · intro segs hsegs
    simp [plot, hsegs, Bind.bind, Except.bind, h3, hp, hpr, hf]
  · intro segs hsegs
    simp [plot, hsegs, Bind.bind, Except.bind]
  · intro segs hsegs
    simp [plot, hsegs, Bind.bind, Except.bind]
  · intro segs hsegs
    simp [plot, hsegs, Bind.bind, Except.bind]
  · intro segs hsegs
    simp [plot, hsegs, Bind.bind, Except.bind]
  · intro s
    unfold posListOf
    rw [if_pos rfl]
    rcases s.flat_position with - | ⟨w, z⟩ <;> simp

/-- Witness for C9 on the empty resolved network with view kind
"other". -/
theorem plot_view_dispatch_wit :
    ("other" : String) ∉ ["3d", "plan", "profile", "flat_profile"] ∧
    ((∀ segs, segsOf [] "A" "other" = .ok segs → plot [] "A" "other" = .error "Invalid view")
    ∧ (∀ segs, segsOf [] "A" "plan" = .ok segs →
        plot [] "A" "plan" =
          .ok ⟨(pointsOf [] "plan").map (List.take 2), labelsOf [] "A",
               segs.map (List.take 2)⟩)
    ∧ (∀ segs, segsOf [] "A" "profile" = .ok segs →
        plot [] "A" "profile" =
          .ok ⟨(pointsOf [] "profile").map (List.drop 1), labelsOf [] "A",
               segs.map (List.drop 1)⟩)
    ∧ (∀ segs, segsOf [] "A" "flat_profile" = .ok segs →
        plot [] "A" "flat_profile" =
          .ok ⟨(pointsOf [] "flat_profile").map (List.take 2), labelsOf [] "A",
               segs.map (List.take 2)⟩)
    ∧ (∀ segs, segsOf [] "A" "3d" = .ok segs →
        plot [] "A" "3d" = .ok ⟨pointsOf [] "3d", labelsOf [] "A", segs⟩)
    ∧ (∀ x y z : ℝ, ([x, y, z] : List ℝ).take 2 = [x, y]
        ∧ ([x, y, z] : List ℝ).drop 1 = [y, z])
    ∧ (∀ s, (posListOf "flat_profile" s).take 2 = posListOf "flat_profile" s)
    ∧ (plotCall ⟨[], "A"⟩ "other").2 = ⟨[], "A"⟩
    ∧ (∀ v2, plotCall ((plotCall ⟨[], "A"⟩ "other").2) v2 = plotCall ⟨[], "A"⟩ v2)) :=
  ⟨by simp, plot_view_dispatch [] "A" "other" (by simp)⟩

/-! ### Lemmas about one scan pass -/

theorem key_update (s : RShot) (p : ℝ × ℝ × ℝ) (q : ℝ × ℝ) :
    ({ s with position := some p, flat_position := some q } : RShot).key = s.key := rfl

theorem resolveAt_length (heap : List RShot) (done : List Nat) (j : Nat) :
    (resolveAt heap done j).length = heap.length := by
  unfold resolveAt; simp

theorem resolveAt_getD_ne (heap : List RShot) (done : List Nat) (j k : Nat) (h : k ≠ j) :
    (resolveAt heap done j).getD k default = heap.getD k default := by
  unfold resolveAt
  simp [List.getD_eq_getElem?_getD, List.getElem?_set_ne (Ne.symm h)]

theorem resolveAt_key (heap : List RShot) (done : List Nat) (j k : Nat) :
    ((resolveAt heap done j).getD k default).key = (heap.getD k default).key := by
  rcases eq_or_ne k j with rfl | h
  · unfold resolveAt
    simp only [List.getD_eq_getElem?_getD, List.getElem?_set_self']
    cases h' : heap[k]? with
    | none => simp
    | some s0 => simp [key_update]
  · rw [resolveAt_getD_ne heap done j k h]

theorem scan_prog_mono : ∀ (m : Nat) (heap : List RShot) (done unf : List Nat) (i : Nat),
    unf.length - i ≤ m → (scan heap done unf i true).prog = true := by
  intro m
  induction m with
  | zero =>
    intro heap done unf i hm
    rw [scan, dif_neg (by omega)]
  | succ m ih =>
    intro heap done unf i hm
    rw [scan]
    split
    · split
      · apply ih
        simp only [List.length_eraseIdx]
        split <;> omega
      · apply ih; omega
    · rfl

theorem scan_prog_true (heap : List RShot) (done unf : List Nat) (i : Nat) :
    (scan heap done unf i true).prog = true :=
  scan_prog_mono unf.length heap done unf i (by omega)

theorem scan_unf_sublist_aux : ∀ (m : Nat) (heap : List RShot) (done unf : List Nat)
    (i : Nat) (p : Bool), unf.length - i ≤ m →
    List.Sublist (scan heap done unf i p).unf unf := by
  intro m
  induction m with
  | zero =>
    intro heap done unf i p hm
    rw [scan, dif_neg (by omega)]
  | succ m ih =>
    intro heap done unf i p hm
    rw [scan]
    split
    · split
      · refine List.Sublist.trans (ih _ _ _ _ _ ?_) (List.eraseIdx_sublist unf i)
        simp only [List.length_eraseIdx]
        split <;> omega
      · exact ih _ _ _ _ _ (by omega)
    · exact List.Sublist.refl _

theorem scan_unf_sublist (heap : List RShot) (done unf : List Nat) (i : Nat) (p : Bool) :
    List.Sublist (scan heap done unf i p).unf unf :=
  scan_unf_sublist_aux unf.length heap done unf i p (by omega)

theorem scan_id_of_not_prog : ∀ (m : Nat) (heap : List RShot) (done unf : List Nat) (i : Nat),
    unf.length - i ≤ m → (scan heap done unf i false).prog = false →
    scan heap done unf i false = ⟨heap, done, unf, false⟩ := by
  intro m
  induction m with
  | zero =>
    intro heap done unf i hm
    rw [scan, dif_neg (by omega)]
    intro _; rfl
  | succ m ih =>
    intro heap done unf i hm
    rw [scan]
    split
    · split
      · intro hfalse
        exact absurd hfalse (by simp [scan_prog_true])
      · exact ih _ _ _ _ (by omega)
    · intro _; rfl

theorem scan_unf_lt_of_prog : ∀ (m : Nat) (heap : List RShot) (done unf : List Nat) (i : Nat),
    unf.length - i ≤ m → (scan heap done unf i false).prog = true →
    (scan heap done unf i false).unf.length < unf.length := by
  intro m
  induction m with
  | zero =>
    intro heap done unf i hm
    rw [scan, dif_neg (by omega)]
    intro h; exact absurd h (by simp)
  | succ m ih =>
    intro heap done unf i hm
    rw [scan]
    split
    · rename_i h
      split
      · intro _
        have hl := (scan_unf_sublist (resolveAt heap done (unf.get ⟨i, h⟩))
          (done ++ [unf.get ⟨i, h⟩]) (unf.eraseIdx i) (i + 1) true).length_le
        have he : (unf.eraseIdx i).length = unf.length - 1 := by
          simp only [List.length_eraseIdx]; split <;> omega
        omega
      · exact ih _ _ _ _ (by omega)
    · intro h; exact absurd h (by simp)

theorem scan_done_prefix : ∀ (m : Nat) (heap : List RShot) (done unf : List Nat)
    (i : Nat) (p : Bool), unf.length - i ≤ m →
    ∃ t, (scan heap done unf i p).done = done ++ t := by
  intro m
  induction m with
  | zero =>
    intro heap done unf i p hm
    rw [scan, dif_neg (by omega)]
    exact ⟨[], by simp⟩
  | succ m ih =>
    intro heap done unf i p hm
    rw [scan]
    split
    · rename_i h
      split
      · obtain ⟨t, ht⟩ := ih (resolveAt heap done (unf.get ⟨i, h⟩))
          (done ++ [unf.get ⟨i, h⟩]) (unf.eraseIdx i) (i + 1) true
          (by simp only [List.length_eraseIdx]; split <;> omega)
        exact ⟨[unf.get ⟨i, h⟩] ++ t, by rw [ht, List.append_assoc]⟩
      · exact ih _ _ _ _ _ (by omega)
    · exact ⟨[], by simp⟩

theorem scan_heap_len : ∀ (m : Nat) (heap : List RShot) (done unf : List Nat)
    (i : Nat) (p : Bool), unf.length - i ≤ m →
    (scan heap done unf i p).heap.length = heap.length := by
  intro m
  induction m with
  | zero =>
    intro heap done unf i p hm
    rw [scan, dif_neg (by omega)]
  | succ m ih =>
    intro heap done unf i p hm
    rw [scan]
    split
    · split
      · rw [ih _ _ _ _ _ (by simp only [List.length_eraseIdx]; split <;> omega)]
        exact resolveAt_length _ _ _
      · exact ih _ _ _ _ _ (by omega)
    · rfl

theorem scan_heap_untouched : ∀ (m : Nat) (heap : List RShot) (done unf : List Nat)
    (i : Nat) (p : Bool) (k : Nat), unf.length - i ≤ m → k ∉ unf →
    (scan heap done unf i p).heap.getD k default = heap.getD k default := by
  intro m
  induction m with
  | zero =>
    intro heap done unf i p k hm _
    rw [scan, dif_neg (by omega)]
  | succ m ih =>
    intro heap done unf i p k hm hk
    rw [scan]
    split
    · rename_i h
      split
      · have hk2 : k ∉ unf.eraseIdx i :=
          fun hmem => hk ((List.eraseIdx_sublist unf i).subset hmem)
        rw [ih _ _ _ _ _ _ (by simp only [List.length_eraseIdx]; split <;> omega) hk2]
        exact resolveAt_getD_ne heap done _ k
          (fun he => hk (he ▸ List.get_mem unf i h))
      · exact ih _ _ _ _ _ _ (by omega) hk
    · rfl

theorem scan_heap_key : ∀ (m : Nat) (heap : List RShot) (done unf : List Nat)
    (i : Nat) (p : Bool) (k : Nat), unf.length - i ≤ m →
    ((scan heap done unf i p).heap.getD k default).key = (heap.getD k default).key := by
  intro m
  induction m with
  | zero =>
    intro heap done unf i p k hm
    rw [scan, dif_neg (by omega)]
  | succ m ih =>
    intro heap done unf i p k hm
    rw [scan]
    split
    · split
      · rw [ih _ _ _ _ _ _ (by simp only [List.length_eraseIdx]; split <;> omega)]
        exact resolveAt_key _ _ _ _
      · exact ih _ _ _ _ _ _ (by omega)
    · rfl

theorem get_cons_eraseIdx_perm : ∀ (l : List Nat) (i : Nat) (h : i < l.length),
    List.Perm (l.get ⟨i, h⟩ :: l.eraseIdx i) l := by
  intro l
  induction l with
  | nil => intro i h; exact absurd h (by simp)
  | cons a t ih =>
    intro i h
    cases i with
    | zero => simp
    | succ i =>
      have h2 : i < t.length := by simpa using h
      show List.Perm (t.get ⟨i, h2⟩ :: a :: t.eraseIdx i) (a :: t)
      exact List.Perm.trans (List.Perm.swap a (t.get ⟨i, h2⟩) (t.eraseIdx i))
        ((ih i h2).cons a)

theorem scan_perm : ∀ (m : Nat) (heap : List RShot) (done unf : List Nat)
    (i : Nat) (p : Bool), unf.length - i ≤ m →
    List.Perm ((scan heap done unf i p).done ++ (scan heap done unf i p).unf)
      (done ++ unf) := by
  intro m
  induction m with
  | zero =>
    intro heap done unf i p hm
    rw [scan, dif_neg (by omega)]
  | succ m ih =>
    intro heap done unf i p hm
    rw [scan]
    split
    · rename_i h
      split
      · refine List.Perm.trans
          (ih _ _ _ _ _ (by simp only [List.length_eraseIdx]; split <;> omega)) ?_
        rw [List.append_assoc]
        exact List.Perm.append_left done
          (show List.Perm ([unf.get ⟨i, h⟩] ++ unf.eraseIdx i) unf from
            get_cons_eraseIdx_perm unf i h)
      · exact ih _ _ _ _ _ (by omega)
    · exact List.Perm.refl _

theorem scan_head_prog (heap : List RShot) (done unf : List Nat) (hne : 0 < unf.length)
    (hmem : (heap.getD (unf.get ⟨0, hne⟩) default).frm ∈ doneNames heap done) :
    (scan heap done unf 0 false).prog = true := by
  rw [scan, dif_pos hne, if_pos hmem]
  exact scan_prog_true _ _ _ _

/-! ### Lemmas about the propagation loop -/

theorem loop_origin : ∀ (fuel : Nat) (heap : List RShot) (done unf : List Nat) (flag : Bool)
    (o : String) (r : ProcResult), loopFuel fuel heap done unf flag o = some r →
    r.originName = some o := by
  intro fuel
  induction fuel with
  | zero => intro heap done unf flag o r h; exact absurd h (by simp [loopFuel])
  | succ fuel ih =>
    intro heap done unf flag o r h
    rw [loopFuel] at h
    split at h
    · injection h with h2; rw [← h2]; rfl
    · split at h
      · injection h with h2; rw [← h2]; rfl
      · exact ih _ _ _ _ _ _ h

theorem loopFuel_isSome : ∀ (n : Nat) (heap : List RShot) (done unf : List Nat) (flag : Bool)
    (o : String) (fuel : Nat), unf.length ≤ n → 2 * unf.length + 2 ≤ fuel →
    (loopFuel fuel heap done unf flag o).isSome := by
  intro n
  induction n with
  | zero =>
    intro heap done unf flag o fuel h1 h2
    have hu : unf = [] := List.length_eq_zero.mp (by omega)
    subst hu
    obtain ⟨f, rfl⟩ : ∃ f, fuel = f + 1 := ⟨fuel - 1, by omega⟩
    rw [loopFuel]
    simp
  | succ n ih =>
    intro heap done unf flag o fuel h1 h2
    obtain ⟨f, rfl⟩ : ∃ f, fuel = f + 1 := ⟨fuel - 1, by omega⟩
    rw [loopFuel]
    by_cases hemp : unf.isEmpty
    · rw [if_pos hemp]; simp
    · rw [if_neg hemp]
      have hne : unf ≠ [] := by simpa [List.isEmpty_iff] using hemp
      have hlen : 0 < unf.length := List.length_pos.mpr hne
      by_cases hflag : flag ∧ (scan heap done unf 0 false).prog = false
      · rw [if_pos hflag]; simp
      · rw [if_neg hflag]
        cases hp : (scan heap done unf 0 false).prog with
        | false =>
          have hid := scan_id_of_not_prog unf.length heap done unf 0 (by omega) hp
          rw [hid]
          dsimp only
          obtain ⟨f2, rfl⟩ : ∃ f2, f = f2 + 1 := ⟨f - 1, by omega⟩
          rw [loopFuel, if_neg hemp, if_pos (by simp [hp])]
          simp
        | true =>
          have hlt := scan_unf_lt_of_prog unf.length heap done unf 0 (by omega) hp
          exact ih _ _ _ _ _ _ (by omega) (by omega)

theorem loop_connErr_spec : ∀ (fuel : Nat) (heap : List RShot) (done unf : List Nat)
    (flag : Bool) (o : String) (hp : List RShot) (o2 : String),
    loopFuel fuel heap done unf flag o = some (.connErr hp o2) →
    hp.length = heap.length
    ∧ (∀ k, (hp.getD k default).key = (heap.getD k default).key)
    ∧ (∀ k, k ∉ unf → hp.getD k default = heap.getD k default) := by
  intro fuel
  induction fuel with
  | zero => intro heap done unf flag o hp o2 h; exact absurd h (by simp [loopFuel])
  | succ fuel ih =>
    intro heap done unf flag o hp o2 h
    rw [loopFuel] at h
    split at h
    · exact absurd h (by simp)
    · split at h
      · injection h with h2
        injection h2 with h3 h4
        subst h3
        refine ⟨scan_heap_len unf.length _ _ _ _ _ (by omega), ?_, ?_⟩
        · intro k; exact scan_heap_key unf.length _ _ _ _ _ k (by omega)
        · intro k hk; exact scan_heap_untouched unf.length _ _ _ _ _ k (by omega) hk
      · obtain ⟨hl, hkey, hun⟩ := ih _ _ _ _ _ _ _ h
        refine ⟨hl.trans (scan_heap_len unf.length _ _ _ _ _ (by omega)), ?_, ?_⟩
        · intro k
          exact (hkey k).trans (scan_heap_key unf.length _ _ _ _ _ k (by omega))
        · intro k hk
          have hk2 : k ∉ (scan heap done unf 0 false).unf :=
            fun hmem => hk ((scan_unf_sublist heap done unf 0 false).subset hmem)
          exact (hun k hk2).trans
            (scan_heap_untouched unf.length _ _ _ _ _ k (by omega) hk)

theorem loop_ok_spec : ∀ (fuel : Nat) (heap : List RShot) (done unf : List Nat)
    (flag : Bool) (o : String) (res : List RShot) (o2 : String),
    loopFuel fuel heap done unf flag o = some (.ok res o2) →
    ∃ (heapF : List RShot) (doneF : List Nat),
      res = doneF.map (fun j => heapF.getD j default)
      ∧ (∃ t, doneF = done ++ t)
      ∧ (∀ k, k ∉ unf → heapF.getD k default = heap.getD k default) := by
  intro fuel
  induction fuel with
  | zero => intro heap done unf flag o res o2 h; exact absurd h (by simp [loopFuel])
  | succ fuel ih =>
    intro heap done unf flag o res o2 h
    rw [loopFuel] at h
    split at h
    · injection h with h2
      injection h2 with h3 h4
      exact ⟨heap, done, h3.symm, ⟨[], by simp⟩, fun k _ => rfl⟩
    · split at h
      · exact absurd h (by simp)
      · obtain ⟨heapF, doneF, hres, ⟨t, ht⟩, hun⟩ := ih _ _ _ _ _ _ _ h
        obtain ⟨t2, ht2⟩ := scan_done_prefix unf.length heap done unf 0 false (by omega)
        refine ⟨heapF, doneF, hres, ⟨t2 ++ t, by rw [ht, ht2, List.append_assoc]⟩, ?_⟩
        intro k hk
        have hk2 : k ∉ (scan heap done unf 0 false).unf :=
          fun hmem => hk ((scan_unf_sublist heap done unf 0 false).subset hmem)
        exact (hun k hk2).trans
          (scan_heap_untouched unf.length _ _ _ _ _ k (by omega) hk)

/-- C4: for every input state (including disconnected or malformed
networks) the propagation loop terminates within its fuel bound of
`2 * unfinished.length + 2` passes — each pass either resolves at least
one shot (shrinking `unfinished`) or changes nothing, and a second
consecutive stalled pass raises ConnectivityError — so the loop never
runs forever; consequently `process` returns on every input. -/
theorem propagation_loop_terminates :
    (∀ (heap : List RShot) (done unf : List Nat) (flag : Bool) (o : String) (fuel : Nat),
        2 * unf.length + 2 ≤ fuel → (loopFuel fuel heap done unf flag o).isSome)
    ∧ ∀ shots : List Shot, (process shots).isSome := by
  constructor
  · intro heap done unf flag o fuel hf
    exact loopFuel_isSome unf.length heap done unf flag o fuel (le_refl _) hf
  · intro shots
    unfold process
    cases hs : shots.map reduceShot with
    | nil => simp
    | cons first rest =>
      exact loopFuel_isSome (List.range' 1 rest.length).length _ _ _ _ _ _ (le_refl _)
        (by simp)

/-- Witness for C4 on a concrete empty loop state. -/
theorem propagation_loop_terminates_wit :
    2 * ([] : List Nat).length + 2 ≤ 2 ∧ (loopFuel 2 [] [] [] false "A").isSome
      ∧ (process []).isSome :=
  ⟨by simp, propagation_loop_terminates.1 [] [] [] false "A" 2 (by simp),
    propagation_loop_terminates.2 []⟩

/-- C2: `process` fixes the origin as the first shot's `from` at
position (0,0,0) (flat (0,0)) and computes the first shot's target from
it with `calc_pos`; `calc_pos` is exactly the claimed forward formula
with degrees converted to radians; and a shot from the origin with
distance 10, azimuth 0, inclination 0 resolves to (0, 10, 0). -/
theorem process_origin_and_formula :
    (∀ (s : Shot) (rest : List Shot) (r : ProcResult),
        process (s :: rest) = some r →
          r.originName = some s.frm
          ∧ (∀ res o2, r = .ok res o2 →
              ∃ hd, res.head? = some hd
                ∧ hd.position = some (calcPos (0, 0, 0) s.distance
                    (reduceAzimuth s.azimuth) (reduceInclination s.inclination))
                ∧ hd.flat_position = some (calcPosFlat (0, 0) s.distance
                    (reduceInclination s.inclination))))
    ∧ (∀ (p : ℝ × ℝ × ℝ) (d a i : ℝ), calcPos p d a i =
        (p.1 + d * Real.cos (i * Real.pi / 180) * Real.sin (a * Real.pi / 180),
         p.2.1 + d * Real.cos (i * Real.pi / 180) * Real.cos (a * Real.pi / 180),
         p.2.2 + d * Real.sin (i * Real.pi / 180)))
    ∧ calcPos (0, 0, 0) 10 0 0 = (0, 10, 0) := by
  refine ⟨?_, ?_, ?_⟩
  · intro s rest r hr
    have hloop : loopFuel (2 * (rest.map reduceShot).length + 2)
        ({ reduceShot s with
            position := some (calcPos (0, 0, 0) (reduceShot s).distance
              (reduceShot s).azimuth (reduceShot s).inclination),
            flat_position := some (calcPosFlat (0, 0) (reduceShot s).distance
              (reduceShot s).inclination) } :: rest.map reduceShot)
        [0] (List.range' 1 (rest.map reduceShot).length) false (reduceShot s).frm
        = some r := hr
    constructor
    · exact loop_origin _ _ _ _ _ _ _ hloop
    · intro res o2 hrok
      subst hrok
      obtain ⟨heapF, doneF, hres, ⟨t, ht⟩, hun⟩ := loop_ok_spec _ _ _ _ _ _ _ _ hloop
      have h0 : (0 : Nat) ∉ List.range' 1 (rest.map reduceShot).length := by
        intro hmem
        rw [List.mem_range'] at hmem
        obtain ⟨i, hi, he⟩ := hmem
        omega
      have hF := hun 0 h0
      subst ht
      refine ⟨heapF.getD 0 default, ?_, ?_, ?_⟩
      · rw [hres]; rfl
      · rw [hF]; rfl
      · rw [hF]; rfl
  · intro p d a i
    have harg : ∀ x : ℝ, degToRad x = x * Real.pi / 180 := by
      intro x; unfold degToRad; ring
    unfold calcPos
    rw [harg i, harg a]
  · unfold calcPos degToRad
    norm_num

/-- Witness for C2 on the one-shot network `[shotA]`. -/
theorem process_origin_and_formula_wit :
    process [shotA] = some (.ok [rShotW] "A")
    ∧ ((ProcResult.ok [rShotW] "A").originName = some shotA.frm
        ∧ ∀ res o2, (ProcResult.ok [rShotW] "A") = .ok res o2 →
            ∃ hd, res.head? = some hd
              ∧ hd.position = some (calcPos (0, 0, 0) shotA.distance
                  (reduceAzimuth shotA.azimuth) (reduceInclination shotA.inclination))
              ∧ hd.flat_position = some (calcPosFlat (0, 0) shotA.distance
                  (reduceInclination shotA.inclination))) :=
  ⟨rfl, process_origin_and_formula.1 shotA [] (.ok [rShotW] "A") rfl⟩

/-! ### The failed run on the disconnected network `exDisc` -/

theorem scan_exDisc :
    scan [rShotAB, rShotXY] [0] [1] 0 false = ⟨[rShotAB, rShotXY], [0], [1], false⟩ := by
  have hmem : (([rShotAB, rShotXY] : List RShot).getD
      (([1] : List Nat).get ⟨0, by norm_num⟩) default).frm ∉
      doneNames [rShotAB, rShotXY] [0] := by
    simp [doneNames, rShotAB, rShotXY]
  rw [scan, dif_pos (by norm_num : (0 : Nat) < ([1] : List Nat).length), if_neg hmem,
    scan, dif_neg (by norm_num)]

theorem process_exDisc :
    process exDisc = some (.connErr [rShotAB, rShotXY] "A") := by
  have h4 : loopFuel 4 [rShotAB, rShotXY] [0] [1] false "A"
      = some (.connErr [rShotAB, rShotXY] "A") := by
    rw [loopFuel, if_neg (by simp), if_neg (by simp), scan_exDisc]
    dsimp only
    rw [loopFuel, if_neg (by simp), if_pos (by rw [scan_exDisc]; exact ⟨rfl, rfl⟩)]
    rw [scan_exDisc]
  exact h4

theorem map_key_eq_of_getD (l1 l2 : List RShot) (hlen : l1.length = l2.length)
    (h : ∀ k, (l1.getD k default).key = (l2.getD k default).key) :
    l1.map RShot.key = l2.map RShot.key := by
  apply List.ext_getElem (by simp [hlen])
  intro n h1 h2
  have hk := h n
  rw [List.getD_eq_getElem?_getD, List.getD_eq_getElem?_getD,
    List.getElem?_eq_getElem (by simpa using h1),
    List.getElem?_eq_getElem (by simpa using h2)] at hk
  simpa using hk

theorem head?_eq_getD (l : List RShot) (hne : l ≠ []) :
    l.head? = some (l.getD 0 default) := by
  cases l with
  | nil => exact absurd rfl hne
  | cons a t => rfl

/-- C7 counterexample: on the disconnected network `exDisc`, `process`
raises ConnectivityError, yet the observable state has changed: the
shots of the first component now carry resolved `position` and
`flat_position` fields — the failed call mutates the network in place,
contradicting the claim that the network state is unchanged. -/
theorem connErr_mutation_cex :
    process exDisc = some (.connErr [rShotAB, rShotXY] "A")
    ∧ rShotAB.position ≠ none ∧ rShotAB.flat_position ≠ none :=
  ⟨process_exDisc, by simp [rShotAB], by simp [rShotAB]⟩

/-- C7 (amended): if `process` fails with ConnectivityError, no
resolved-shot list is returned and `self.shots` keeps all shots in their
original order — same length, and every record keeps its `from`, `name`,
`distance` and (reduced) angle fields — but the call does mutate the
records in place: paired angles have been averaged to scalars, the
recorded origin is the first shot's `from`, and the first shot (at
least) retains the position and flat position computed before the
failure, so partial geometry persists inside the network state. -/
theorem connErr_state (shots : List Shot) (hp : List RShot) (o : String)
    (h : process shots = some (.connErr hp o)) :
    hp.length = shots.length
    ∧ hp.map RShot.key = (shots.map reduceShot).map RShot.key
    ∧ (∃ hd rest, shots = hd :: rest ∧ o = hd.frm
        ∧ ∃ r0, hp.head? = some r0 ∧ r0.key = (reduceShot hd).key
            ∧ r0.position.isSome ∧ r0.flat_position.isSome) := by
  cases shots with
  | nil => exact absurd h (by simp [process])
  | cons s rest =>
    have hloop : loopFuel (2 * (rest.map reduceShot).length + 2)
        ({ reduceShot s with
            position := some (calcPos (0, 0, 0) (reduceShot s).distance
              (reduceShot s).azimuth (reduceShot s).inclination),
            flat_position := some (calcPosFlat (0, 0) (reduceShot s).distance
              (reduceShot s).inclination) } :: rest.map reduceShot)
        [0] (List.range' 1 (rest.map reduceShot).length) false (reduceShot s).frm
        = some (.connErr hp o) := h
    obtain ⟨hlen, hkey, hun⟩ := loop_connErr_spec _ _ _ _ _ _ _ _ hloop
    have horig : (ProcResult.connErr hp o).originName = some (reduceShot s).frm :=
      loop_origin _ _ _ _ _ _ _ hloop
    have ho : o = s.frm := by
      simpa [ProcResult.originName] using horig
    have hlen2 : hp.length = (s :: rest).length := by
      rw [hlen]; simp
    have h0 : (0 : Nat) ∉ List.range' 1 (rest.map reduceShot).length := by
      intro hmem
      rw [List.mem_range'] at hmem
      obtain ⟨i, hi, he⟩ := hmem
      omega
    have hF := hun 0 h0
    refine ⟨hlen2, ?_, s, rest, rfl, ho, hp.getD 0 default, ?_, ?_, ?_, ?_⟩
    · refine map_key_eq_of_getD hp _ (by rw [hlen2]; simp) ?_
      intro k
      rw [hkey k]
      cases k with
      | zero => rfl
      | succ k => rfl
    · refine head?_eq_getD hp ?_
      intro he
      rw [he] at hlen2
      exact absurd hlen2 (by simp)
    · rw [hF]; rfl
    · rw [hF]; rfl
    · rw [hF]; rfl

/-- Witness for the amended C7 on the concrete disconnected network. -/
theorem connErr_state_wit :
    process exDisc = some (.connErr [rShotAB, rShotXY] "A")
    ∧ (([rShotAB, rShotXY] : List RShot).length = exDisc.length
      ∧ ([rShotAB, rShotXY] : List RShot).map RShot.key
          = (exDisc.map reduceShot).map RShot.key
      ∧ (∃ hd rest, exDisc = hd :: rest ∧ "A" = hd.frm
          ∧ ∃ r0, ([rShotAB, rShotXY] : List RShot).head? = some r0
              ∧ r0.key = (reduceShot hd).key
              ∧ r0.position.isSome ∧ r0.flat_position.isSome)) :=
  ⟨process_exDisc, connErr_state exDisc [rShotAB, rShotXY] "A" process_exDisc⟩

/-! ### The loop invariant for sequentially well-formed networks -/

theorem resolveAt_getD_self_isSome (heap : List RShot) (done : List Nat) (j : Nat)
    (hj : j < heap.length) :
    ((resolveAt heap done j).getD j default).position.isSome
    ∧ ((resolveAt heap done j).getD j default).flat_position.isSome := by
  unfold resolveAt
  simp [List.getD_eq_getElem?_getD, List.getElem?_set_self hj]

theorem getD_map_reduceShot (l : List Shot) (j : Nat) (hj : j < l.length) :
    (l.map reduceShot).getD j default = reduceShot (l.get ⟨j, hj⟩) := by
  rw [List.getD_eq_getElem?_getD, List.getElem?_map, List.getElem?_eq_getElem hj]
  rfl

theorem map_getD_range_name : ∀ (l : List RShot),
    (List.range l.length).map (fun k => (l.getD k default).name) = l.map RShot.name := by
  intro l
  induction l with
  | nil => rfl
  | cons a t _ =>
    rw [List.length_cons, List.range_succ_eq_map, List.map_cons, List.map_map, List.map_cons]
    congr 1

theorem get_zero_min (l : List Nat) (hl : 0 < l.length) (hp : l.Pairwise (· < ·)) :
    ∀ x ∈ l, l.get ⟨0, hl⟩ ≤ x := by
  cases l with
  | nil => intro x hx; exact absurd hx (by simp)
  | cons a t =>
    intro x hx
    rcases List.mem_cons.mp hx with rfl | ht
    · exact le_of_eq rfl
    · exact le_of_lt ((List.pairwise_cons.mp hp).1 x ht)

theorem scan_inv (NM FM : Nat → String) : ∀ (m : Nat) (heap : List RShot)
    (done unf : List Nat) (i : Nat) (p : Bool), unf.length - i ≤ m →
    LoopInv NM FM heap done unf →
    LoopInv NM FM (scan heap done unf i p).heap (scan heap done unf i p).done
      (scan heap done unf i p).unf := by
  intro m
  induction m with
  | zero =>
    intro heap done unf i p hm inv
    rw [scan, dif_neg (by omega)]
    exact inv
  | succ m ih =>
    intro heap done unf i p hm inv
    rw [scan]
    split
    · rename_i h
      split
      · apply ih _ _ _ _ _ (by simp only [List.length_eraseIdx]; split <;> omega)
        have hjm : unf.get ⟨i, h⟩ ∈ unf := List.get_mem unf i h
        have hnd : (done ++ unf).Nodup :=
          (inv.perm.nodup_iff).mpr (List.nodup_range heap.length)
        have hdisj : List.Disjoint done unf := List.disjoint_of_nodup_append hnd
        have hjd : unf.get ⟨i, h⟩ ∉ done := fun hd => hdisj hd hjm
        have hjlen : unf.get ⟨i, h⟩ < heap.length :=
          List.mem_range.mp (inv.perm.subset (List.mem_append_right done hjm))
        constructor
        · rw [resolveAt_length]
          refine List.Perm.trans ?_ inv.perm
          rw [List.append_assoc]
          exact List.Perm.append_left done (get_cons_eraseIdx_perm unf i h)
        · exact inv.sorted.sublist (List.eraseIdx_sublist unf i)
        · exact fun k hk => inv.pos1 k ((List.eraseIdx_sublist unf i).subset hk)
        · intro k hk
          rcases List.mem_append.mp hk with hkd | hkj
          · have hkne : k ≠ unf.get ⟨i, h⟩ := fun he => hjd (he ▸ hkd)
            rw [resolveAt_getD_ne heap done _ k hkne]
            exact inv.donePos k hkd
          · have hke : k = unf.get ⟨i, h⟩ := by simpa using hkj
            rw [hke]
            exact resolveAt_getD_self_isSome heap done _ hjlen
        · intro k
          have hk := resolveAt_key heap done (unf.get ⟨i, h⟩) k
          calc ((resolveAt heap done (unf.get ⟨i, h⟩)).getD k default).name
              = ((resolveAt heap done (unf.get ⟨i, h⟩)).getD k default).key.2.1 := rfl
            _ = (heap.getD k default).key.2.1 := by rw [hk]
            _ = NM k := inv.nameAt k
        · intro k
          have hk := resolveAt_key heap done (unf.get ⟨i, h⟩) k
          calc ((resolveAt heap done (unf.get ⟨i, h⟩)).getD k default).frm
              = ((resolveAt heap done (unf.get ⟨i, h⟩)).getD k default).key.1 := rfl
            _ = (heap.getD k default).key.1 := by rw [hk]
            _ = FM k := inv.frmAt k
      · exact ih _ _ _ _ _ (by omega) inv
    · exact inv

theorem scan_first_prog (NM FM : Nat → String) (heap : List RShot) (done unf : List Nat)
    (inv : LoopInv NM FM heap done unf)
    (hwf : ∀ k, k < heap.length → 0 < k → ∃ j, j < k ∧ NM j = FM k)
    (hne : 0 < unf.length) :
    (scan heap done unf 0 false).prog = true := by
  apply scan_head_prog heap done unf hne
  have hm_mem : unf.get ⟨0, hne⟩ ∈ unf := List.get_mem unf 0 hne
  have hm_pos : 0 < unf.get ⟨0, hne⟩ := inv.pos1 _ hm_mem
  have hm_lt : unf.get ⟨0, hne⟩ < heap.length :=
    List.mem_range.mp (inv.perm.subset (List.mem_append_right done hm_mem))
  obtain ⟨j, hjm, hj⟩ := hwf (unf.get ⟨0, hne⟩) hm_lt hm_pos
  have hj_not : j ∉ unf := fun hmem =>
    absurd hjm (not_lt.mpr (get_zero_min unf hne inv.sorted j hmem))
  have hj_done : j ∈ done := by
    have hjr : j ∈ List.range heap.length := List.mem_range.mpr (lt_trans hjm hm_lt)
    rcases List.mem_append.mp (inv.perm.symm.subset hjr) with hd | hu
    · exact hd
    · exact absurd hu hj_not
  rw [inv.frmAt, ← hj, ← inv.nameAt j]
  exact List.mem_map.mpr ⟨j, hj_done, rfl⟩

theorem loop_ok_empty (NM FM : Nat → String) (n f : Nat) (heap : List RShot)
    (done : List Nat) (flag : Bool) (o : String) (hn : heap.length = n)
    (inv : LoopInv NM FM heap done []) :
    ∃ res, loopFuel (f + 1) heap done [] flag o = some (.ok res o)
      ∧ res.length = n
      ∧ (∀ s ∈ res, s.position.isSome ∧ s.flat_position.isSome)
      ∧ List.Perm (res.map RShot.name) ((List.range n).map NM) := by
  have hperm : List.Perm done (List.range heap.length) := by
    have := inv.perm
    rwa [List.append_nil] at this
  refine ⟨done.map (fun j => heap.getD j default), ?_, ?_, ?_, ?_⟩
  · rw [loopFuel]; simp
  · rw [List.length_map, hperm.length_eq, List.length_range, hn]
  · intro s hs
    obtain ⟨k, hk, rfl⟩ := List.mem_map.mp hs
    exact inv.donePos k hk
  · rw [List.map_map]
    have he : (RShot.name ∘ fun j => heap.getD j default)
        = fun j => (heap.getD j default).name := rfl
    rw [he, List.map_congr_left (fun k _ => inv.nameAt k)]
    subst hn
    exact hperm.map NM

theorem loop_ok_of_inv (NM FM : Nat → String) (n : Nat)
    (hwf : ∀ k, k < n → 0 < k → ∃ j, j < k ∧ NM j = FM k) :
    ∀ (len fuel : Nat) (heap : List RShot) (done unf : List Nat) (flag : Bool) (o : String),
    unf.length ≤ len → len + 1 ≤ fuel → heap.length = n → LoopInv NM FM heap done unf →
    ∃ res, loopFuel fuel heap done unf flag o = some (.ok res o)
      ∧ res.length = n
      ∧ (∀ s ∈ res, s.position.isSome ∧ s.flat_position.isSome)
      ∧ List.Perm (res.map RShot.name) ((List.range n).map NM) := by
  intro len
  induction len with
  | zero =>
    intro fuel heap done unf flag o h1 h2 hn inv
    have hu : unf = [] := List.length_eq_zero.mp (by omega)
    subst hu
    obtain ⟨f, rfl⟩ : ∃ f, fuel = f + 1 := ⟨fuel - 1, by omega⟩
    exact loop_ok_empty NM FM n f heap done flag o hn inv
  | succ len ih =>
    intro fuel heap done unf flag o h1 h2 hn inv
    by_cases hemp : unf = []
    · subst hemp
      obtain ⟨f, rfl⟩ : ∃ f, fuel = f + 1 := ⟨fuel - 1, by omega⟩
      exact loop_ok_empty NM FM n f heap done flag o hn inv
    · obtain ⟨f, rfl⟩ : ∃ f, fuel = f + 1 := ⟨fuel - 1, by omega⟩
      have hne : 0 < unf.length := List.length_pos.mpr hemp
      have hprog : (scan heap done unf 0 false).prog = true :=
        scan_first_prog NM FM heap done unf inv
          (fun k hk h0 => hwf k (by omega) h0) hne
      rw [loopFuel, if_neg (by simpa [List.isEmpty_iff] using hemp),
        if_neg (by simp [hprog])]
      have hinv2 := scan_inv NM FM unf.length heap done unf 0 false (by omega) inv
      have hlen2 : (scan heap done unf 0 false).heap.length = n := by
        rw [scan_heap_len unf.length _ _ _ _ _ (by omega), hn]
      have hlt : (scan heap done unf 0 false).unf.length < unf.length :=
        scan_unf_lt_of_prog unf.length heap done unf 0 (by omega) hprog
      exact ih f _ _ _ true o (by omega) (by omega) hlen2 hinv2

theorem process_cons_ok (s : Shot) (rest : List Shot) (first0 : RShot)
    (hfname : first0.name = s.name) (hffrm : first0.frm = s.frm)
    (hfpos : first0.position.isSome) (hfflat : first0.flat_position.isSome)
    (hwf : WF (s :: rest)) :
    ∃ res, loopFuel (2 * (rest.map reduceShot).length + 2)
        (first0 :: rest.map reduceShot) [0]
        (List.range' 1 (rest.map reduceShot).length) false s.frm
      = some (.ok res s.frm)
      ∧ res.length = (s :: rest).length
      ∧ (∀ x ∈ res, x.position.isSome ∧ x.flat_position.isSome)
      ∧ List.Perm (res.map RShot.name) ((s :: rest).map Shot.name) := by
  have hbr_name : ∀ j (hj : j < (s :: rest).length),
      ((first0 :: rest.map reduceShot).getD j default).name
        = ((s :: rest).get ⟨j, hj⟩).name := by
    intro j hj
    cases j with
    | zero => exact hfname
    | succ j2 =>
      have hj2 : j2 < rest.length := by simpa using hj
      show ((rest.map reduceShot).getD j2 default).name = (rest.get ⟨j2, hj2⟩).name
      rw [getD_map_reduceShot rest j2 hj2]
      rfl
  have hbr_frm : ∀ j (hj : j < (s :: rest).length),
      ((first0 :: rest.map reduceShot).getD j default).frm
        = ((s :: rest).get ⟨j, hj⟩).frm := by
    intro j hj
    cases j with
    | zero => exact hffrm
    | succ j2 =>
      have hj2 : j2 < rest.length := by simpa using hj
      show ((rest.map reduceShot).getD j2 default).frm = (rest.get ⟨j2, hj2⟩).frm
      rw [getD_map_reduceShot rest j2 hj2]
      rfl
  have hlen0 : (first0 :: rest.map reduceShot).length = (s :: rest).length := by simp
  obtain ⟨res, hres, hlen, hpos, hperm⟩ :=
    loop_ok_of_inv
      (fun k => ((first0 :: rest.map reduceShot).getD k default).name)
      (fun k => ((first0 :: rest.map reduceShot).getD k default).frm)
      ((s :: rest).length)
      (by
        intro k hk h0
        obtain ⟨j, hj, hjk, hname⟩ := hwf k (by simpa using hk) h0
        refine ⟨j, hjk, ?_⟩
        dsimp only
        rw [hbr_name j hj, hbr_frm k (by simpa using hk), hname])
      (rest.map reduceShot).length
      (2 * (rest.map reduceShot).length + 2)
      (first0 :: rest.map reduceShot) [0]
      (List.range' 1 (rest.map reduceShot).length) false s.frm
      (by simp)
      (by omega)
      hlen0
      (by
        constructor
        · rw [show (first0 :: rest.map reduceShot).length
              = (rest.map reduceShot).length + 1 by simp,
            List.range_eq_range', List.range'_succ]
          exact List.Perm.refl _
        · exact List.pairwise_lt_range' 1 (rest.map reduceShot).length
        · intro k hk
          rw [List.mem_range'] at hk
          obtain ⟨i, hi, he⟩ := hk
          omega
        · intro k hk
          have hk0 : k = 0 := by simpa using hk
          subst hk0
          exact ⟨hfpos, hfflat⟩
        · exact fun k => rfl
        · exact fun k => rfl)
  refine ⟨res, hres, by rw [hlen], hpos, ?_⟩
  refine hperm.trans (List.Perm.of_eq ?_)
  rw [← hlen0, map_getD_range_name, List.map_cons, List.map_cons, List.map_map, hfname]
  rfl

/-- C10: on a nonempty network in which every non-first shot's `from`
equals the target name of an earlier shot and every distance is positive
(exactly what successful `add_shot` calls guarantee), `process` succeeds:
the stalled-scan ConnectivityError branch is unreachable, every shot
receives a position and a flat position, and the resolved list contains
all added shots (same length, and the target names are a permutation of
the input's).  On the empty network `process` reports the empty-pop
IndexError, not a ConnectivityError. -/
theorem process_wellformed_ok (shots : List Shot) (hne : shots ≠ [])
    (_hd : ∀ x ∈ shots, 0 < x.distance) (hwf : WF shots) :
    process ([] : List Shot) = some .emptyErr
    ∧ ∃ res o, process shots = some (.ok res o)
      ∧ res.length = shots.length
      ∧ (∀ s ∈ res, s.position.isSome ∧ s.flat_position.isSome)
      ∧ List.Perm (res.map RShot.name) (shots.map Shot.name) := by
  refine ⟨rfl, ?_⟩
  cases shots with
  | nil => exact absurd rfl hne
  | cons s rest =>
    obtain ⟨res, hres, hlen, hpos, hperm⟩ :=
      process_cons_ok s rest
        { reduceShot s with
          position := some (calcPos (0, 0, 0) (reduceShot s).distance
            (reduceShot s).azimuth (reduceShot s).inclination),
          flat_position := some (calcPosFlat (0, 0) (reduceShot s).distance
            (reduceShot s).inclination) }
        rfl rfl rfl rfl hwf
    exact ⟨res, s.frm, hres, hlen, hpos, hperm⟩

/-- Witness for C10 on the two-shot chain A→B→C. -/
theorem process_wellformed_ok_wit :
    shotsW ≠ [] ∧ (∀ x ∈ shotsW, 0 < x.distance) ∧ WF shotsW ∧
    (process ([] : List Shot) = some .emptyErr
    ∧ ∃ res o, process shotsW = some (.ok res o)
      ∧ res.length = shotsW.length
      ∧ (∀ s ∈ res, s.position.isSome ∧ s.flat_position.isSome)
      ∧ List.Perm (res.map RShot.name) (shotsW.map Shot.name)) := by
  have hd : ∀ x ∈ shotsW, 0 < x.distance := by
    intro x hx
    rcases List.mem_cons.mp hx with rfl | hx2
    · norm_num
    · rcases List.mem_cons.mp hx2 with rfl | hx3
      · norm_num
      · exact absurd hx3 (by simp)
  have hwf : WF shotsW := by
    intro k h hk
    cases k with
    | zero => omega
    | succ k2 =>
      cases k2 with
      | zero => exact ⟨0, by simp [shotsW], by omega, rfl⟩
      | succ k3 =>
        exfalso
        simp [shotsW] at h
        omega
  exact ⟨by simp [shotsW], hd, hwf, process_wellformed_ok shotsW (by simp [shotsW]) hd hwf⟩

end Cavemap
